import Mathlib

/-!
Shallow embedding of the `trans-engine` crate (src/trans-engine/src/{lang,parser,engine}.rs).

Modelling conventions:
* Rust `String` is modelled as `List Char` (`Str`); Rust `char` is Lean `Char`
  (both are Unicode scalar values).
* A Rust panic (`unwrap` on `None`, arithmetic underflow/overflow, shift by ≥ bit
  width) is modelled as `Option.none` in `TransformRule.run` and as
  `RunOut.panicked` in `Rule.run`/`Rule.run_all`.  Arithmetic overflow semantics
  follow the debug profile (the profile of the repository's tests and fuzz
  target): overflow panics.
* Unicode case mappings (`to_lowercase`, `to_uppercase`, `is_uppercase`) are
  modelled by Lean's `Char.toLower`/`Char.toUpper`/`Char.isUpper`.  No claim
  settled here depends on non-ASCII case folding.
* `str::len()` in Rust is a UTF-8 byte count; it is modelled by `utf8Len`,
  computed from an explicit UTF-8 encoder `utf8Encode`.
* `rayon`'s `par_iter().filter_map(..).collect::<Vec<_>>()` preserves the input
  order of the surviving elements (a documented rayon guarantee); the engine is
  therefore modelled by an order-preserving sequential traversal, with a panic
  in any worker propagating to the whole call.
-/

set_option maxHeartbeats 1000000

deriving instance DecidableEq for Except

abbrev Str := List Char

/-- UTF-8 encoding of one Unicode scalar value, as its list of byte values. -/
def utf8Encode (c : Char) : List Nat :=
  let n := c.toNat
  if n < 0x80 then [n]
  else if n < 0x800 then [0xC0 + n / 64, 0x80 + n % 64]
  else if n < 0x10000 then [0xE0 + n / 4096, 0x80 + n / 64 % 64, 0x80 + n % 64]
  else [0xF0 + n / 262144, 0x80 + n / 4096 % 64, 0x80 + n / 64 % 64, 0x80 + n % 64]

/-- UTF-8 bytes of a string. -/
def utf8Bytes (s : Str) : List Nat := s.flatMap utf8Encode

/-- Rust `str::len()`: the UTF-8 byte length. -/
def utf8Len (s : Str) : Nat := (utf8Bytes s).length

/-- `enum Rotation` from lang.rs. -/
inductive Rotation
  | Left
  | Right
deriving DecidableEq

/-- `enum Truncate` from lang.rs. -/
inductive Truncate
  | Left
  | Right
  | To (n : Nat)
deriving DecidableEq

/-- `enum TransformRule` from lang.rs. -/
inductive TransformRule
  | Lowercase
  | Uppercase
  | Capitalize
  | InvertCapitalize
  | ToggleCase (n : Option Nat)
  | Reverse
  | Duplicate (n : Option Nat)
  | Reflect
  | Rotate (r : Rotation)
  | Append (s : Str)
  | Prepend (s : Str)
  | Delete (n : Nat)
  | Extract (a b : Nat)
  | Omit (a b : Nat)
  | Insert (n : Nat) (s : Str)
  | Overwrite (n : Nat) (s : Str)
  | Truncate (t : Truncate)
  | Replace (a b : Str)
  | Purge (s : Str)
  | DuplicateFirst (n : Nat)
  | DuplicateLast (n : Nat)
  | DuplicateAll
  | SwapFront
  | SwapBack
  | Swap (a b : Nat)
  | BitwiseShiftLeft (n : Nat)
  | BitwiseShiftRight (n : Nat)
  | AsciiIncrement (n : Nat)
  | AsciiDecrement (n : Nat)
  | ReplaceWithNext (n : Nat)
  | ReplaceWithPrev (n : Nat)
  | DuplicateFirstBlock (n : Nat)
  | DuplicateLastBlock (n : Nat)
deriving DecidableEq

/-- `enum RejectRule` from lang.rs. -/
inductive RejectRule
  | ShorterThan (n : Nat)
  | LongerThan (n : Nat)
  | NotEqualTo (n : Nat)
  | Contains (s : Str)
  | NotContains (s : Str)
  | NotStartsWith (s : Str)
  | NotEndsWith (s : Str)
  | NotEqualAt (n : Nat) (s : Str)
  | ContainsLessThan (n : Nat) (s : Str)
deriving DecidableEq

/-- `enum Rule` from lang.rs. -/
inductive Rule
  | NoOp
  | Transform (t : TransformRule)
  | Reject (r : RejectRule)
  | End
deriving DecidableEq

/-- The per-char case toggle used by the `ToggleCase` arm of the source:
`if c.is_uppercase() { c.to_lowercase().next().unwrap() } else { c.to_uppercase().next().unwrap() }`. -/
def toggleChar (c : Char) : Char := if c.isUpper then c.toLower else c.toUpper

/-- Rust `str::char_indices()`: pairs of UTF-8 byte offset and char, from `off`. -/
def charIndicesAux (off : Nat) : Str → List (Nat × Char)
  | [] => []
  | c :: t => (off, c) :: charIndicesAux (off + (utf8Encode c).length) t

/-- Rust `str::char_indices()` (byte offsets, not char positions). -/
def char_indices (s : Str) : List (Nat × Char) := charIndicesAux 0 s

/-- Rust `str::repeat(k)`: `k` copies of `s` concatenated. -/
def repeatStr (s : Str) (k : Nat) : Str := (List.replicate k s).flatten

/-- Core loop of Rust `str::replace` for a nonempty pattern `p :: ps`:
leftmost non-overlapping matches are replaced by `rep`.  The loop consumes at
least one char per step, so it is written by structural recursion on a fuel
that is kept strictly above the remaining length (see `replaceCoreFuel_eq`);
the fuel-exhausted branch is unreachable. -/
def replaceCoreFuel (p : Char) (ps rep : Str) : Nat → Str → Str
  | 0, _ => []
  | _ + 1, [] => []
  | fuel + 1, c :: t =>
    if (p :: ps).isPrefixOf (c :: t) then
      rep ++ replaceCoreFuel p ps rep fuel (t.drop ps.length)
    else c :: replaceCoreFuel p ps rep fuel t

/-- Rust `str::replace(pat, rep)`.  An empty pattern matches at every char
boundary (including the start and the end), so each boundary receives a copy
of `rep`. -/
def rustReplace (s pat rep : Str) : Str :=
  match pat with
  | [] => rep ++ s.flatMap (fun c => c :: rep)
  | p :: ps => replaceCoreFuel p ps rep (s.length + 1) s

/-- Core loop of Rust `str::matches(pat).count()` for a nonempty pattern:
counts leftmost non-overlapping matches.  Fueled like `replaceCoreFuel`. -/
def countMatchesCoreFuel (p : Char) (ps : Str) : Nat → Str → Nat
  | 0, _ => 0
  | _ + 1, [] => 0
  | fuel + 1, c :: t =>
    if (p :: ps).isPrefixOf (c :: t) then 1 + countMatchesCoreFuel p ps fuel (t.drop ps.length)
    else countMatchesCoreFuel p ps fuel t

/-- Rust `input.matches(pat).count()`.  An empty pattern matches at every
char boundary, hence `len + 1` times. -/
def countMatches (pat s : Str) : Nat :=
  match pat with
  | [] => s.length + 1
  | p :: ps => countMatchesCoreFuel p ps (s.length + 1) s

/-- The `Swap` arm of `TransformRule::run` after the `(min, max)` normalisation:
`chars().enumerate().map(..)` with `nth(_).unwrap()`; an out-of-range `nth`
makes the whole map panic (`none`). -/
def swapRun (lo hi : Nat) (s : Str) : Option Str :=
  s.enum.mapM fun p =>
    if p.1 = lo then s.get? hi
    else if p.1 = hi then s.get? lo
    else some p.2

/-- `TransformRule::run` from lang.rs.  `none` models a panic. -/
def TransformRule.run (t : TransformRule) (input : Str) : Option Str :=
  match t with
  | .Lowercase => some (input.map Char.toLower)
  | .Uppercase => some (input.map Char.toUpper)
  | .Capitalize =>
    match input with
    | [] => some []
    | c :: rest => some (Char.toUpper c :: rest.map Char.toLower)
  | .InvertCapitalize =>
    match input with
    | [] => some []
    | c :: rest => some (Char.toLower c :: rest.map Char.toUpper)
  | .ToggleCase (some n) =>
    some ((char_indices input).map fun p => if p.1 = n then toggleChar p.2 else p.2)
  | .ToggleCase none => some (input.map toggleChar)
  | .Reverse => some input.reverse
  | .Duplicate n => some (repeatStr input (1 + n.getD 1))
  | .Reflect => some (input ++ input.reverse)
  | .Rotate .Left =>
    match input with
    | [] => none
    | c :: rest => some (rest ++ [c])
  | .Rotate .Right =>
    match input.reverse with
    | [] => none
    | c :: rest => some (c :: rest.reverse)
  | .Append s => some (input ++ s)
  | .Prepend s => some (s ++ input)
  | .Swap a b => swapRun (min a b) (max a b) input
  | .Delete n => some (input.take n ++ input.drop (n + 1))
  | .Extract a b => some ((input.drop a).take b)
  | .Omit a b => some (input.take a ++ input.drop (a + b))
  | .Insert n s => some (input.take n ++ s ++ input.drop n)
  | .Overwrite n s => some (input.take n ++ s ++ input.drop (n + utf8Len s))
  | .Truncate .Left => some (input.drop 1)
  | .Truncate .Right =>
    match input with
    | [] => none
    | _ => some (input.take (utf8Len input - 1))
  | .Truncate (.To n) => some (input.take n)
  | .Replace a b => some (rustReplace input a b)
  | .Purge s => some (rustReplace input s [])
  | .DuplicateFirst n =>
    match input with
    | [] => some input
    | c :: _ => some (List.replicate n c ++ input)
  | .DuplicateLast n =>
    match input.getLast? with
    | none => some input
    | some l => some (input ++ List.replicate n l)
  | .DuplicateAll => some (input.flatMap fun c => [c, c])
  | .SwapFront =>
    match input with
    | a :: b :: rest => some (b :: a :: rest)
    | _ => none
  | .SwapBack =>
    match input.reverse with
    | x :: y :: rp => some (rp.reverse ++ [x, y])
    | _ => none
  | .BitwiseShiftLeft n =>
    if 8 ≤ n then none
    else some (input.map fun c => Char.ofNat (c.toNat % 256 * 2 ^ n % 256))
  | .BitwiseShiftRight n =>
    if 8 ≤ n then none
    else some (input.map fun c => Char.ofNat (c.toNat % 256 / 2 ^ n))
  | .AsciiIncrement n =>
    some (input.map fun c => Char.ofNat ((c.toNat % 256 + n % 256) % 256))
  | .AsciiDecrement n =>
    some (input.map fun c => Char.ofNat ((c.toNat % 256 + 256 - n % 256) % 256))
  | .ReplaceWithNext n =>
    input.enum.mapM fun p => if p.1 = n then input.get? (n + 1) else some p.2
  | .ReplaceWithPrev n =>
    input.enum.mapM fun p =>
      if p.1 = n then (if n = 0 then none else input.get? (n - 1)) else some p.2
  | .DuplicateFirstBlock n => some (input.take n ++ input)
  | .DuplicateLastBlock n => some (input ++ (input.reverse.take n).reverse)

/-- `RejectRule::run` from lang.rs.  `none` models a rejected word.
Length comparisons use `str::len()`, i.e. UTF-8 byte length. -/
def RejectRule.run (r : RejectRule) (input : Str) : Option Str :=
  match r with
  | .ShorterThan n => if n ≤ utf8Len input then some input else none
  | .LongerThan n => if utf8Len input ≤ n then some input else none
  | .NotEqualTo n => if utf8Len input = n then some input else none
  | .Contains s => if s <:+: input then none else some input
  | .NotContains s => if s <:+: input then some input else none
  | .NotStartsWith s => if s.isPrefixOf input then some input else none
  | .NotEndsWith s => if s.isSuffixOf input then some input else none
  | .NotEqualAt n s => if (input.drop n).take (utf8Len s) = s then some input else none
  | .ContainsLessThan n s => if n ≤ countMatches s input then some input else none

/-- Outcome of applying one rule (or a chain) to a word. -/
inductive RunOut
  | panicked
  | rejected
  | ok (s : Str)
deriving DecidableEq

/-- `Rule::run` from lang.rs. -/
def Rule.run (r : Rule) (input : Str) : RunOut :=
  match r with
  | .NoOp => .ok input
  | .Transform t =>
    match t.run input with
    | some out => .ok out
    | none => .panicked
  | .Reject rj =>
    match rj.run input with
    | some out => .ok out
    | none => .rejected
  | .End => .ok input

/-- `Rule::run_all` from lang.rs: fold the chain left, short-circuiting on
rejection; a panic in any rule aborts. -/
def Rule.run_all (rules : List Rule) (input : Str) : RunOut :=
  match rules with
  | [] => .ok input
  | r :: rest =>
    match r.run input with
    | .panicked => .panicked
    | .rejected => .rejected
    | .ok out => Rule.run_all rest out

/-- One step of the `coalesce` closure in `basic_simplify` (lang.rs lines
395-441).  `some m` models `Ok(m)` (merge the adjacent pair into `m`);
`none` models `Err((prev, current))`, which in `itertools::coalesce` emits
`prev` and continues with `current`. -/
def coalesceRule (prev current : Rule) : Option Rule :=
  match prev, current with
  | .NoOp, c => some c
  | .Transform (.Append a), .Transform (.Append b) =>
    some (.Transform (.Append (a ++ b)))
  | .Transform (.Prepend a), .Transform (.Prepend b) =>
    some (.Transform (.Prepend (b ++ a)))
  | .Transform (.DuplicateLast a), .Transform (.DuplicateLast b) =>
    some (.Transform (.DuplicateLast (a + b)))
  | .Transform (.DuplicateFirst a), .Transform (.DuplicateLast b) =>
    some (.Transform (.DuplicateFirst (a + b)))
  | .Transform .Lowercase, .Transform .Lowercase => some (.Transform .Lowercase)
  | .Transform .Uppercase, .Transform .Uppercase => some (.Transform .Uppercase)
  | .Transform .Capitalize, .Transform .Capitalize => some (.Transform .Capitalize)
  | .Transform .InvertCapitalize, .Transform .InvertCapitalize =>
    some (.Transform .InvertCapitalize)
  | .Transform (.ToggleCase a), .Transform (.ToggleCase b) =>
    if a = b then some .NoOp else none
  | .Transform .Reverse, .Transform .Reverse => some .NoOp
  | _, _ => none

/-- `itertools::coalesce` main loop: `prev` is the pending element. -/
def coalesceAux (prev : Rule) : List Rule → List Rule
  | [] => [prev]
  | x :: xs =>
    match coalesceRule prev x with
    | some m => coalesceAux m xs
    | none => prev :: coalesceAux x xs

/-- `itertools::coalesce` over a whole list. -/
def coalesceList : List Rule → List Rule
  | [] => []
  | x :: xs => coalesceAux x xs

/-- The filter in `basic_simplify`: `match rule { NoOp => false, _ => true }`. -/
def noOpFilter (r : Rule) : Bool :=
  match r with
  | .NoOp => false
  | _ => true

/-- `basic_simplify` from lang.rs: strip `NoOp`s, then coalesce adjacent pairs. -/
def basic_simplify (rules : List Rule) : List Rule :=
  coalesceList (rules.filter noOpFilter)

/-- `Rule::simplify` from lang.rs. -/
def Rule.simplify (rules : List Rule) : List Rule := basic_simplify rules

/-- `winnow::ascii::dec_uint`: a maximal nonempty run of decimal digits, as a
value together with the number of consumed chars; fails when the value
overflows `usize` (64-bit). -/
def dec_uint (s : Str) : Option (Nat × Nat) :=
  let ds := s.takeWhile Char.isDigit
  if ds.isEmpty then none
  else
    let v := ds.foldl (fun a c => a * 10 + (c.toNat - 48)) 0
    if v < 2 ^ 64 then some (v, ds.length) else none

/-- `range_parser_delim` from parser.rs: `N:M`.  Returns the pair and the
consumed char count. -/
def rangeDelim (s : Str) : Option ((Nat × Nat) × Nat) :=
  (dec_uint s).bind fun p =>
    match s.drop p.2 with
    | ':' :: _ =>
      (dec_uint (s.drop (p.2 + 1))).bind fun q => some ((p.1, q.1), p.2 + 1 + q.2)
    | _ => none

/-- `range_parse_raw` from parser.rs: exactly two digits, one value each. -/
def rangeRaw (s : Str) : Option ((Nat × Nat) × Nat) :=
  match s with
  | c1 :: c2 :: _ =>
    if c1.isDigit && c2.isDigit then some ((c1.toNat - 48, c2.toNat - 48), 2) else none
  | _ => none

/-- `range_parser` from parser.rs: delimited form first, then the raw form. -/
def rangeParse (s : Str) : Option ((Nat × Nat) × Nat) :=
  match rangeDelim s with
  | some r => some r
  | none => rangeRaw s

/-- The body of the `dispatch!` in `parse_rule` (parser.rs lines 196-252):
given the opcode char and the remaining input, the parsed rule and the number
of operand chars consumed.  The `'#'` arm uses `rest` and consumes all
remaining input. -/
def parseRuleAux (c : Char) (rest : Str) : Option (Rule × Nat) :=
  match c with
  | '#' => some (.NoOp, rest.length)
  | ':' => some (.NoOp, 0)
  | 'l' => some (.Transform .Lowercase, 0)
  | 'u' => some (.Transform .Uppercase, 0)
  | 'c' => some (.Transform .Capitalize, 0)
  | 'C' => some (.Transform .InvertCapitalize, 0)
  | 't' => some (.Transform (.ToggleCase none), 0)
  | 'T' => (dec_uint rest).map fun p => (.Transform (.ToggleCase (some p.1)), p.2)
  | 'r' => some (.Transform .Reverse, 0)
  | 'd' => some (.Transform (.Duplicate none), 0)
  | 'p' => (dec_uint rest).map fun p => (.Transform (.Duplicate (some p.1)), p.2)
  | 'f' => some (.Transform .Reflect, 0)
  | '{' => some (.Transform (.Rotate .Left), 0)
  | '}' => some (.Transform (.Rotate .Right), 0)
  | '$' =>
    match rest with
    | d :: _ => some (.Transform (.Append [d]), 1)
    | [] => none
  | '^' =>
    match rest with
    | d :: _ => some (.Transform (.Prepend [d]), 1)
    | [] => none
  | '[' => some (.Transform (.Truncate .Left), 0)
  | ']' => some (.Transform (.Truncate .Right), 0)
  | 'D' => (dec_uint rest).map fun p => (.Transform (.Delete p.1), p.2)
  | 'x' => (rangeParse rest).map fun p => (.Transform (.Extract p.1.1 p.1.2), p.2)
  | 'O' => (rangeParse rest).map fun p => (.Transform (.Omit p.1.1 p.1.2), p.2)
  | 'i' =>
    match rest with
    | ch :: r2 => (dec_uint r2).map fun p => (.Transform (.Insert p.1 [ch]), p.2 + 1)
    | [] => none
  | 'o' =>
    (dec_uint rest).bind fun p =>
      match rest.drop p.2 with
      | ch :: _ => some (.Transform (.Overwrite p.1 [ch]), p.2 + 1)
      | [] => none
  | 's' =>
    match rest with
    | a :: b :: _ => some (.Transform (.Replace [a] [b]), 2)
    | _ => none
  | '@' =>
    match rest with
    | ch :: _ => some (.Transform (.Purge [ch]), 1)
    | [] => none
  | 'z' => (dec_uint rest).map fun p => (.Transform (.DuplicateFirst p.1), p.2)
  | 'Z' => (dec_uint rest).map fun p => (.Transform (.DuplicateLast p.1), p.2)
  | 'q' => some (.Transform .DuplicateAll, 0)
  | 'k' => some (.Transform .SwapFront, 0)
  | 'K' => some (.Transform .SwapBack, 0)
  | '*' => (rangeParse rest).map fun p => (.Transform (.Swap p.1.1 p.1.2), p.2)
  | 'L' => (dec_uint rest).map fun p => (.Transform (.BitwiseShiftLeft p.1), p.2)
  | 'R' => (dec_uint rest).map fun p => (.Transform (.BitwiseShiftRight p.1), p.2)
  | '+' => (dec_uint rest).map fun p => (.Transform (.AsciiIncrement p.1), p.2)
  | '-' => (dec_uint rest).map fun p => (.Transform (.AsciiDecrement p.1), p.2)
  | '.' => (dec_uint rest).map fun p => (.Transform (.ReplaceWithNext p.1), p.2)
  | ',' => (dec_uint rest).map fun p => (.Transform (.ReplaceWithPrev p.1), p.2)
  | 'y' => (dec_uint rest).map fun p => (.Transform (.DuplicateFirstBlock p.1), p.2)
  | 'Y' => (dec_uint rest).map fun p => (.Transform (.DuplicateLastBlock p.1), p.2)
  | '<' => (dec_uint rest).map fun p => (.Reject (.LongerThan p.1), p.2)
  | '>' => (dec_uint rest).map fun p => (.Reject (.ShorterThan p.1), p.2)
  | '_' => (dec_uint rest).map fun p => (.Reject (.NotEqualTo p.1), p.2)
  | '!' =>
    match rest with
    | ch :: _ => some (.Reject (.Contains [ch]), 1)
    | [] => none
  | '/' =>
    match rest with
    | ch :: _ => some (.Reject (.NotContains [ch]), 1)
    | [] => none
  | '(' =>
    match rest with
    | ch :: _ => some (.Reject (.NotStartsWith [ch]), 1)
    | [] => none
  | ')' =>
    match rest with
    | ch :: _ => some (.Reject (.NotEndsWith [ch]), 1)
    | [] => none
  | '=' =>
    (dec_uint rest).bind fun p =>
      match rest.drop p.2 with
      | ch :: _ => some (.Reject (.NotEqualAt p.1 [ch]), p.2 + 1)
      | [] => none
  | '%' =>
    (dec_uint rest).bind fun p =>
      match rest.drop p.2 with
      | ch :: _ => some (.Reject (.ContainsLessThan p.1 [ch]), p.2 + 1)
      | [] => none
  | _ =>
    if c = Char.ofNat 39 then
      (dec_uint rest).map fun p => (.Transform (.Truncate (.To p.1)), p.2)
    else none

/-- `parse_rule` from parser.rs: dispatch on one leading char, then the
operands; on success returns the rule and the remaining input. -/
def parse_rule (s : Str) : Option (Rule × Str) :=
  match s with
  | [] => none
  | c :: rest => (parseRuleAux c rest).map fun p => (p.1, rest.drop p.2)

/-- `winnow::combinator::repeat(0.., parse_rule)`: parse rules greedily until
the first failure; returns the rules and the unconsumed remainder.  Every
successful `parse_rule` consumes at least the opcode char, so the loop is
written by structural recursion on a fuel kept strictly above the remaining
length (see `repeatRulesFuel_eq`); the fuel-exhausted branch is unreachable. -/
def repeatRulesFuel : Nat → Str → List Rule × Str
  | 0, s => ([], s)
  | _ + 1, [] => ([], [])
  | fuel + 1, c :: rest =>
    match parseRuleAux c rest with
    | none => ([], c :: rest)
    | some p =>
      let q := repeatRulesFuel fuel (rest.drop p.2)
      (p.1 :: q.1, q.2)

/-- The greedy repetition at full fuel. -/
def repeatRules (s : Str) : List Rule × Str := repeatRulesFuel (s.length + 1) s

/-- `parse_line` from parser.rs: `terminated(repeat(0.., parse_rule),
alt((literal('\n'), eof)))` — the greedy repetition must be followed by a
newline or the end of input. -/
def parse_line (s : Str) : Option (List Rule) :=
  match repeatRules s with
  | (rs, []) => some rs
  | (rs, c :: _) => if c = '\n' then some rs else none

/-- The parallel fan-out in `engine::run`:
`words.par_iter().filter_map(|w| Rule::run_all(rules, w)).collect()`.
Order-preserving per rayon's collect guarantee; a panic in any word
propagates (`none`). -/
def runWords (rs : List Rule) : List Str → Option (List Str)
  | [] => some []
  | w :: ws =>
    match Rule.run_all rs w with
    | .panicked => none
    | .rejected => runWords rs ws
    | .ok o => (runWords rs ws).map fun t => o :: t

/-- The loop of `engine::run` over rule lines: parse each line, skip it on a
parse error (the `Err` arm only prints), otherwise simplify and fan out over
all words, extending the output array. -/
def engineGo (rules words : List Str) : Option (List Str) :=
  match rules with
  | [] => some []
  | line :: rest =>
    match parse_line line with
    | some parsed =>
      (runWords (Rule.simplify parsed) words).bind fun outs =>
        (engineGo rest words).map fun t => outs ++ t
    | none => engineGo rest words

namespace engine

/-- `engine::run` from engine.rs: always returns `Ok(output_array)`; the outer
`none` models a panic escaping from the parallel fan-out. -/
def run (rules words : List Str) : Option (Except Str (List Str)) :=
  (engineGo rules words).map Except.ok

end engine

/-- Modelled from the spec's words (§4.5), one rule line of the sequential
reference: parse the line, skip it on failure, else append the surviving
output of each word in input order to the accumulated output sequence. -/
def refLineStep (words : List Str) (acc : List Str) (line : Str) : List Str :=
  match parse_line line with
  | some parsed =>
    words.foldl
      (fun acc2 w =>
        match Rule.run_all (Rule.simplify parsed) w with
        | .ok o => acc2 ++ [o]
        | _ => acc2)
      acc
  | none => acc

/-- Modelled from the spec's words (§4.5): the sequential nested-loop
reference for the batch driver, processing rule lines in order. -/
def engineRunRef (rules words : List Str) : List Str :=
  rules.foldl (refLineStep words) []

/-- Modelled from the spec's words (§4.3, claim C8): shift applied to each
byte of the UTF-8 encoding. -/
def byteShiftLeftSpec (n : Nat) (bytes : List Nat) : List Nat :=
  bytes.map fun b => b * 2 ^ n % 256

/-! ## Model-justification lemmas: the fueled loops are fuel-independent
once the fuel exceeds the remaining input length. -/

theorem repeatRulesFuel_eq (f1 : Nat) : ∀ (f2 : Nat) (s : Str), s.length < f1 →
    s.length < f2 → repeatRulesFuel f1 s = repeatRulesFuel f2 s := by
  induction f1 using Nat.strong_induction_on with
  | _ f1 ih =>
    intro f2 s h1 h2
    match f1, f2, s with
    | _ + 1, _ + 1, [] => rfl
    | k + 1, m + 1, c :: rest =>
      simp only [List.length_cons] at h1 h2
      simp only [repeatRulesFuel]
      cases hp : parseRuleAux c rest with
      | none => rfl
      | some p =>
        have hd : (rest.drop p.2).length ≤ rest.length := by
          simp [List.length_drop]
        have : repeatRulesFuel k (rest.drop p.2) = repeatRulesFuel m (rest.drop p.2) := by
          apply ih k (Nat.lt_succ_self k)
          · omega
          · omega
        simp [this]

theorem replaceCoreFuel_eq (p : Char) (ps rep : Str) (f1 : Nat) : ∀ (f2 : Nat) (s : Str),
    s.length < f1 → s.length < f2 →
    replaceCoreFuel p ps rep f1 s = replaceCoreFuel p ps rep f2 s := by
  induction f1 using Nat.strong_induction_on with
  | _ f1 ih =>
    intro f2 s h1 h2
    match f1, f2, s with
    | _ + 1, _ + 1, [] => rfl
    | k + 1, m + 1, c :: t =>
      simp only [List.length_cons] at h1 h2
      simp only [replaceCoreFuel]
      have hd : (t.drop ps.length).length ≤ t.length := by
        simp [List.length_drop]
      split
      · rw [ih k (Nat.lt_succ_self k) m (t.drop ps.length) (by omega) (by omega)]
      · rw [ih k (Nat.lt_succ_self k) m t (by omega) (by omega)]

theorem countMatchesCoreFuel_eq (p : Char) (ps : Str) (f1 : Nat) : ∀ (f2 : Nat) (s : Str),
    s.length < f1 → s.length < f2 →
    countMatchesCoreFuel p ps f1 s = countMatchesCoreFuel p ps f2 s := by
  induction f1 using Nat.strong_induction_on with
  | _ f1 ih =>
    intro f2 s h1 h2
    match f1, f2, s with
    | _ + 1, _ + 1, [] => rfl
    | k + 1, m + 1, c :: t =>
      simp only [List.length_cons] at h1 h2
      simp only [countMatchesCoreFuel]
      have hd : (t.drop ps.length).length ≤ t.length := by
        simp [List.length_drop]
      split
      · rw [ih k (Nat.lt_succ_self k) m (t.drop ps.length) (by omega) (by omega)]
      · rw [ih k (Nat.lt_succ_self k) m t (by omega) (by omega)]

/-! ## Helper lemmas -/

/-- `repeatStr s (k + 1)` peels one copy. -/
theorem repeatStr_succ (s : Str) (k : Nat) : repeatStr s (k + 1) = s ++ repeatStr s k := rfl

/-- Length of `str::repeat`. -/
theorem repeatStr_length (s : Str) (k : Nat) : (repeatStr s k).length = k * s.length := by
  induction k with
  | zero => simp [repeatStr]
  | succ k ih =>
    rw [repeatStr_succ, List.length_append, ih, Nat.succ_mul, Nat.add_comm]

/-- `(Char.ofNat k).toNat = k` for byte values. -/
theorem charOfNat_toNat (k : Nat) (hk : k < 256) : (Char.ofNat k).toNat = k := by
  unfold Char.ofNat
  split
  · simp [Char.ofNatAux, Char.toNat, UInt32.toNat, UInt32.ofNatCore]
  · next h => exact absurd (Or.inl (by omega)) h

/-- `Char.ofNat` of a byte value stays a byte value. -/
theorem charOfNat_toNat_lt (k : Nat) (hk : k < 256) : (Char.ofNat k).toNat < 256 := by
  rw [charOfNat_toNat k hk]
  exact hk

/-- Interleaving the identity: `flatMap` with singleton is the identity. -/
theorem flatMap_singleton_id (s : Str) : s.flatMap (fun c => [c]) = s := by
  induction s with
  | nil => rfl
  | cons c t ih => simp [ih]

/-- Length of the empty-pattern `replace` body. -/
theorem flatMap_cons_const_length (s b : Str) :
    (s.flatMap (fun c => c :: b)).length = s.length * (b.length + 1) := by
  induction s with
  | nil => simp
  | cons c t ih =>
    simp only [List.flatMap_cons, List.length_append, List.length_cons, ih]
    ring

/-- A `NoOp` pending element is always merged into its successor. -/
theorem coalesceRule_noop (x : Rule) : coalesceRule Rule.NoOp x = some x := rfl

/-- The coalesce loop never returns an empty list. -/
theorem coalesceAux_ne_nil (xs : List Rule) : ∀ prev, coalesceAux prev xs ≠ [] := by
  induction xs with
  | nil => intro prev; simp [coalesceAux]
  | cons x xs ih =>
    intro prev
    simp only [coalesceAux]
    cases h : coalesceRule prev x with
    | some m => exact ih m
    | none => simp

/-- Every element the coalesce loop emits before its final pending element is
not `NoOp`: a `NoOp` pending element is always merged away. -/
theorem coalesceAux_dropLast (xs : List Rule) :
    ∀ prev, Rule.NoOp ∉ (coalesceAux prev xs).dropLast := by
  induction xs with
  | nil => intro prev; simp [coalesceAux]
  | cons x xs ih =>
    intro prev
    simp only [coalesceAux]
    cases h : coalesceRule prev x with
    | some m => exact ih m
    | none =>
      have hprev : prev ≠ Rule.NoOp := by
        intro he
        rw [he, coalesceRule_noop] at h
        cases h
      cases hl : coalesceAux x xs with
      | nil => exact absurd hl (coalesceAux_ne_nil xs x)
      | cons y ys =>
        change Rule.NoOp ∉ (prev :: y :: ys).dropLast
        rw [List.dropLast_cons₂]
        intro hm
        rcases List.mem_cons.mp hm with he | hm2
        · exact hprev he.symm
        · have hx := ih x
          rw [hl] at hx
          exact hx hm2

/-- The surviving outputs of the parallel fan-out, when no word panics, are
the order-preserving `filterMap` of the words. -/
theorem runWords_eq_filterMap (rs : List Rule) : ∀ (ws out : List Str),
    runWords rs ws = some out →
    out = ws.filterMap (fun w =>
      match Rule.run_all rs w with
      | .ok o => some o
      | _ => none) := by
  intro ws
  induction ws with
  | nil =>
    intro out h
    simp only [runWords] at h
    cases h
    rfl
  | cons w ws ih =>
    intro out h
    simp only [runWords] at h
    cases hr : Rule.run_all rs w with
    | panicked => rw [hr] at h; cases h
    | rejected =>
      rw [hr] at h
      simp only [List.filterMap_cons, hr]
      exact ih out h
    | ok o =>
      rw [hr] at h
      obtain ⟨t, ht, hout⟩ := Option.map_eq_some'.mp h
      simp only [List.filterMap_cons, hr]
      rw [← hout, ih t ht]

/-- The append-collecting inner loop of the sequential reference equals the
accumulator followed by the `filterMap` of the words. -/
theorem foldl_keep_eq (rs : List Rule) : ∀ (ws acc : List Str),
    ws.foldl
      (fun acc2 w =>
        match Rule.run_all rs w with
        | .ok o => acc2 ++ [o]
        | _ => acc2)
      acc
    = acc ++ ws.filterMap (fun w =>
        match Rule.run_all rs w with
        | .ok o => some o
        | _ => none) := by
  intro ws
  induction ws with
  | nil => intro acc; simp
  | cons w ws ih =>
    intro acc
    simp only [List.foldl_cons, List.filterMap_cons]
    cases hr : Rule.run_all rs w with
    | ok o => simp [hr, ih]
    | panicked => simp [hr, ih]
    | rejected => simp [hr, ih]

/-- The engine loop, whenever it completes without a panic, computes the same
outputs as the sequential reference loop, relative to any accumulator. -/
theorem engineGo_ref (words : List Str) : ∀ (rules acc out : List Str),
    engineGo rules words = some out →
    rules.foldl (refLineStep words) acc = acc ++ out := by
  intro rules
  induction rules with
  | nil =>
    intro acc out h
    simp only [engineGo] at h
    cases h
    simp
  | cons line rest ih =>
    intro acc out h
    simp only [engineGo] at h
    cases hp : parse_line line with
    | none =>
      rw [hp] at h
      simp only [List.foldl_cons]
      have hstep : refLineStep words acc line = acc := by
        simp [refLineStep, hp]
      rw [hstep]
      exact ih acc out h
    | some parsed =>
      rw [hp] at h
      obtain ⟨outs, houts, hmap⟩ := Option.bind_eq_some.mp h
      obtain ⟨t, ht, hout⟩ := Option.map_eq_some'.mp hmap
      simp only [List.foldl_cons]
      have hstep : refLineStep words acc line = acc ++ outs := by
        simp only [refLineStep, hp]
        rw [foldl_keep_eq, ← runWords_eq_filterMap _ words outs houts]
      rw [hstep, ih (acc ++ outs) t ht, ← hout, List.append_assoc]

/-! ## Claims -/

/-- C1: the claim says `Rule::run`/`run_all` terminate normally and never
panic, with `Rotate` of the empty string returning the empty string and
`SwapFront`/`SwapBack` on strings of length < 2 returning the input
unchanged.  The code instead calls `.unwrap()` on `None` in all of these
cases and panics (modelled as `none` / `RunOut.panicked`). -/
theorem rotate_swap_unwrap_panics :
    TransformRule.run (.Rotate .Left) [] = none ∧
    TransformRule.run (.Rotate .Right) [] = none ∧
    TransformRule.run .SwapFront ['a'] = none ∧
    TransformRule.run .SwapBack ['a'] = none ∧
    Rule.run_all [Rule.Transform (.Rotate .Left)] [] = .panicked := by decide

/-- C2: the claim says `simplify` preserves `apply_all` semantics for every
coalesced pair.  The `DuplicateFirst(a), DuplicateLast(b) →
DuplicateFirst(a+b)` coalesce arm changes the semantics: on the word "ab",
the original chain yields "aabb" while the simplified chain yields "aaab". -/
theorem simplify_breaks_dup_first_last :
    Rule.simplify [Rule.Transform (.DuplicateFirst 1), Rule.Transform (.DuplicateLast 1)]
      = [Rule.Transform (.DuplicateFirst 2)] ∧
    Rule.run_all
      (Rule.simplify [Rule.Transform (.DuplicateFirst 1), Rule.Transform (.DuplicateLast 1)])
      ['a', 'b'] = .ok ['a', 'a', 'a', 'b'] ∧
    Rule.run_all [Rule.Transform (.DuplicateFirst 1), Rule.Transform (.DuplicateLast 1)]
      ['a', 'b'] = .ok ['a', 'a', 'b', 'b'] := by decide

/-- C3 (counterexample): the claim's length formula `(2 + (n ?? 1)) * len(s)`
fails already for `n = None` on "a": the output is "aa" of length 2, not 3. -/
theorem duplicate_len_refuted :
    TransformRule.run (.Duplicate Option.none) ['a'] = some ['a', 'a'] ∧
    (['a', 'a'] : Str).length ≠ (2 + (Option.none : Option Nat).getD 1) * (['a'] : Str).length := by
  decide

/-- C3 (amended): `Duplicate(n)` produces `1 + (n ?? 1)` total copies of the
input, so the output length is `(1 + (n ?? 1)) * len(s)`. -/
theorem duplicate_total_copies (n : Option Nat) (s : Str) :
    TransformRule.run (.Duplicate n) s = some (repeatStr s (1 + n.getD 1)) ∧
    (repeatStr s (1 + n.getD 1)).length = (1 + n.getD 1) * s.length :=
  ⟨rfl, repeatStr_length s _⟩

/-- C4: the batch driver returns exactly the surviving outputs in
`(rule_line, word)` lexicographic order: whenever `engine::run` returns
(i.e. no transform panicked), its output equals the sequential nested-loop
reference `engineRunRef`. -/
theorem run_matches_reference (rules words out : List Str)
    (h : engine.run rules words = some (Except.ok out)) :
    out = engineRunRef rules words := by
  have hgo : engineGo rules words = some out := by
    simp only [engine.run] at h
    obtain ⟨a, ha, hae⟩ := Option.map_eq_some'.mp h
    injection hae with hae
    rw [← hae]
    exact ha
  have hfold := engineGo_ref words rules [] out hgo
  show out = rules.foldl (refLineStep words) []
  rw [hfold]
  simp

/-- Witness for C4 at a concrete input. -/
theorem run_matches_reference_witness :
    engine.run [[':']] [['a']] = some (Except.ok [['a']]) ∧
    [['a']] = engineRunRef [[':']] [['a']] :=
  ⟨by decide, run_matches_reference [[':']] [['a']] [['a']] (by decide)⟩

/-- C5 (counterexample): `engine::run` does not return a success result on
every input — with rule line "{" and the empty word, the evaluator panics
inside the parallel fan-out and `run` never returns (modelled as `none`). -/
theorem run_panics_rotate_empty : engine.run [['{']] [[]] = none := by decide

/-- C5 (amended): `engine::run` never returns an `Err`, and a rule line that
fails to parse is skipped: it contributes no output and later lines are
still parsed and applied.  (The only failure that can escape is a panic,
see the C1 bug.) -/
theorem run_skips_bad_lines (bad : Str) (rules words : List Str)
    (h : parse_line bad = none) :
    engine.run (bad :: rules) words = engine.run rules words ∧
    ∀ e, engine.run rules words ≠ some (Except.error e) := by
  constructor
  · simp only [engine.run, engineGo, h]
  · intro e hc
    simp only [engine.run] at hc
    obtain ⟨a, _, hae⟩ := Option.map_eq_some'.mp hc
    exact Except.noConfusion hae

/-- Witness for C5 at a concrete input: "T" fails to parse and is skipped. -/
theorem run_skips_bad_lines_witness :
    parse_line ['T'] = none ∧
    (engine.run [['T'], [':']] [['a']] = engine.run [[':']] [['a']] ∧
      ∀ e, engine.run [[':']] [['a']] ≠ some (Except.error e)) :=
  ⟨by decide, run_skips_bad_lines ['T'] [[':']] [['a']] (by decide)⟩

/-- C6: the claim (and the repository's own `test_error_handling`) says a
line beginning with `#` fails to parse and contributes no output.  The
dispatch table instead maps `#` to `NoOp` consuming the rest of the line, so
the line parses and every word passes through unchanged: with rule line "#"
and word "pw" the engine outputs "pw" instead of nothing. -/
theorem comment_line_parses_as_noop :
    parse_line ['#'] = some [Rule.NoOp] ∧
    engine.run [['#']] [['p', 'w']] = some (Except.ok [['p', 'w']]) := by decide

/-- C7 (counterexample): `simplify` can return a sequence containing `NoOp`:
coalescing `Reverse, Reverse` produces a trailing `NoOp` after the NoOp
filter has already run. -/
theorem simplify_output_contains_noop :
    Rule.NoOp ∈ Rule.simplify [Rule.Transform .Reverse, Rule.Transform .Reverse] := by decide

/-- C7 (amended): `simplify` strips every input `NoOp`, and a `NoOp` can
appear in its output only as the final element (re-introduced by coalescing
an adjacent `ToggleCase` or `Reverse` pair). -/
theorem simplify_noop_at_most_last (rules : List Rule) :
    Rule.NoOp ∉ (Rule.simplify rules).dropLast := by
  show Rule.NoOp ∉ (coalesceList (rules.filter noOpFilter)).dropLast
  cases h : rules.filter noOpFilter with
  | nil => simp [coalesceList]
  | cons x xs =>
    simp only [coalesceList]
    exact coalesceAux_dropLast xs x

/-- C8 (counterexample): the claim says the bitwise shifts act on each byte
of the UTF-8 encoding and keep the result as an unvalidated byte string.
The code instead acts on each Unicode scalar truncated to `u8` and rebuilds
a valid string: on "é" (UTF-8 `C3 A9`) with shift 1 the code yields "Ò"
(UTF-8 `C3 92`), not the byte-shifted `86 52`. -/
theorem bitshift_byte_model_refuted :
    TransformRule.run (.BitwiseShiftLeft 1) ['é'] = some ['Ò'] ∧
    utf8Bytes ['Ò'] ≠ byteShiftLeftSpec 1 (utf8Bytes ['é']) := by decide

/-- C8 (amended): for shift amounts < 8 the bitwise shifts act per Unicode
scalar (`c as u8`, shifted, then `as char`): the output has exactly one char
per input char (not one per UTF-8 byte) and every output scalar is a byte
value, so the result is a valid string. -/
theorem bitshift_per_scalar (n : Nat) (s : Str) (h : n < 8) :
    (∃ out, TransformRule.run (.BitwiseShiftLeft n) s = some out ∧
      out.length = s.length ∧ ∀ c ∈ out, c.toNat < 256) ∧
    (∃ out, TransformRule.run (.BitwiseShiftRight n) s = some out ∧
      out.length = s.length ∧ ∀ c ∈ out, c.toNat < 256) := by
  have h8 : ¬ 8 ≤ n := by omega
  constructor
  · refine ⟨s.map fun c => Char.ofNat (c.toNat % 256 * 2 ^ n % 256), ?_, by simp, fun c hc => ?_⟩
    · rw [show TransformRule.run (.BitwiseShiftLeft n) s
          = if 8 ≤ n then none
            else some (s.map fun c => Char.ofNat (c.toNat % 256 * 2 ^ n % 256)) from rfl,
        if_neg h8]
    · obtain ⟨c0, _, rfl⟩ := List.mem_map.mp hc
      exact charOfNat_toNat_lt _ (Nat.mod_lt _ (by omega))
  · refine ⟨s.map fun c => Char.ofNat (c.toNat % 256 / 2 ^ n), ?_, by simp, fun c hc => ?_⟩
    · rw [show TransformRule.run (.BitwiseShiftRight n) s
          = if 8 ≤ n then none
            else some (s.map fun c => Char.ofNat (c.toNat % 256 / 2 ^ n)) from rfl,
        if_neg h8]
    · obtain ⟨c0, _, rfl⟩ := List.mem_map.mp hc
      exact charOfNat_toNat_lt _
        (Nat.lt_of_le_of_lt (Nat.div_le_self _ _) (Nat.mod_lt _ (by omega)))

/-- Witness for C8 (amended) at a concrete input. -/
theorem bitshift_per_scalar_witness :
    (1 : Nat) < 8 ∧
    ((∃ out, TransformRule.run (.BitwiseShiftLeft 1) ['é'] = some out ∧
      out.length = (['é'] : Str).length ∧ ∀ c ∈ out, c.toNat < 256) ∧
     (∃ out, TransformRule.run (.BitwiseShiftRight 1) ['é'] = some out ∧
      out.length = (['é'] : Str).length ∧ ∀ c ∈ out, c.toNat < 256)) :=
  ⟨by decide, bitshift_per_scalar 1 ['é'] (by decide)⟩

/-- C9 (counterexample): the claim says `Replace("", b)` returns the input
unchanged; in fact Rust's `str::replace` with an empty pattern inserts `b`
at every char boundary: on "a" with `b` = "x" the output is "xax". -/
theorem replace_empty_not_id :
    TransformRule.run (.Replace [] ['x']) ['a'] ≠ some ['a'] ∧
    TransformRule.run (.Replace [] ['x']) ['a'] = some ['x', 'a', 'x'] := by decide

/-- C9 (amended): `Purge("")` returns the input unchanged, and so does
`Replace("", b)` when `b` is empty; for nonempty `b`, `Replace("", b)` never
returns the input unchanged (it inserts `b` at every char boundary). -/
theorem purge_replace_empty_pattern (b s : Str) :
    TransformRule.run (.Purge []) s = some s ∧
    TransformRule.run (.Replace [] []) s = some s ∧
    (b ≠ [] → TransformRule.run (.Replace [] b) s ≠ some s) := by
  refine ⟨?_, ?_, ?_⟩
  · simp [TransformRule.run, rustReplace, flatMap_singleton_id]
  · simp [TransformRule.run, rustReplace, flatMap_singleton_id]
  · intro hb hc
    simp only [TransformRule.run, rustReplace, Option.some.injEq] at hc
    have hlen := congrArg List.length hc
    rw [List.length_append, flatMap_cons_const_length] at hlen
    have hmul : s.length * (b.length + 1) = s.length * b.length + s.length :=
      Nat.mul_succ s.length b.length
    rw [hmul] at hlen
    have hb0 : b.length ≠ 0 := fun h0 => hb (List.length_eq_zero.mp h0)
    generalize s.length * b.length = M at hlen
    omega

/-- Witness for C9 (amended) at a concrete input. -/
theorem purge_replace_empty_pattern_witness :
    (['x'] : Str) ≠ [] ∧ TransformRule.run (.Replace [] ['x']) ['a'] ≠ some ['a'] :=
  ⟨by decide, (purge_replace_empty_pattern ['x'] ['a']).2.2 (by decide)⟩

/-- C10: `Swap(a, b)` normalizes its index pair to `(min, max)` before
swapping, so swapping is symmetric in the two indices (the claim's validity
hypotheses are not even needed by the code). -/
theorem swap_index_symmetric (a b : Nat) (s : Str)
    (_ha : a < s.length) (_hb : b < s.length) :
    TransformRule.run (.Swap a b) s = TransformRule.run (.Swap b a) s := by
  simp only [TransformRule.run]
  rw [Nat.min_comm, Nat.max_comm]

/-- Witness for C10 at a concrete input. -/
theorem swap_index_symmetric_witness :
    (0 : Nat) < (['a', 'b'] : Str).length ∧ (1 : Nat) < (['a', 'b'] : Str).length ∧
    TransformRule.run (.Swap 0 1) ['a', 'b'] = TransformRule.run (.Swap 1 0) ['a', 'b'] :=
  ⟨by decide, by decide, swap_index_symmetric 0 1 ['a', 'b'] (by decide) (by decide)⟩
